import Mathlib

/-!
Verification of the chunking / ingest / query core of a minimal RAG pipeline.

The development shallowly embeds the Python sources:
  * `src/document_processor/chunking.py` (`basic_word_chunker`),
  * `scripts/ingest_docs.py` (`process_and_ingest_documents`),
  * `scripts/query_rag.py` (`search_and_answer`),
  * `src/gcp_clients/vector_store_client.py` (`find_neighbors`).

Strings are embedded as `List Char`; external collaborators (object store,
embedding provider, vector index, completion provider) are oracle functions
passed as parameters, returning `Option`/`Except` to model their Python
null-return / exception behaviour.  The chunker's while loop is embedded as a
fuel-indexed recursion (`chunkLoopF`): every iteration of the Python loop
strictly advances the element cursor, so `fuel = remaining number of
elements` is an exact bound; fuel exhaustion is represented by `none` and is
proved unreachable (`chunkLoopF_isSome`).
-/

set_option autoImplicit false

/-- Python `element.isspace()`: true iff the string is nonempty and all of
its characters are whitespace. -/
def strIsSpace (e : List Char) : Bool :=
  !e.isEmpty && e.all Char.isWhitespace

/-- Python `list(filter(None, re.split(r'(\s+)', text)))`: the list of
maximal runs of whitespace respectively non-whitespace characters of the
text, in order, with no empty elements. -/
def splitRuns : List Char → List (List Char)
  | [] => []
  | c :: cs =>
    match splitRuns cs with
    | (d :: ds) :: rs =>
      if c.isWhitespace == d.isWhitespace then (c :: d :: ds) :: rs
      else [c] :: (d :: ds) :: rs
    | _ => [[c]]

/-- Both inner loops of `basic_word_chunker` (lines 25-30 and 45-52 of
chunking.py) have the same shape: starting from the cursor, walk elements
while fewer than `k` non-whitespace elements (words) have been counted, and
stop immediately after the `k`-th word.  `spanWords l k` is the number of
elements such a walk consumes on `l`; the budget `k` is an `Int` because the
Python word counts are plain ints. -/
def spanWords : List (List Char) → Int → Nat
  | [], _ => 0
  | e :: rest, k =>
    if k ≤ 0 then 0 else 1 + spanWords rest (if strIsSpace e then k else k - 1)

/-- Word elements (non-whitespace runs) of an element list. -/
def wordElems (l : List (List Char)) : List (List Char) :=
  l.filter (fun e => !strIsSpace e)

/-- Number of word elements of an element list. -/
def countW (l : List (List Char)) : Nat :=
  (wordElems l).length

/-- The outer `while current_element_idx < len(words_and_spaces)` loop of
`basic_word_chunker` (lines 20-60 of chunking.py), written on the remaining
suffix of the element list.  One unit of fuel is one loop iteration; each
iteration either returns or drops at least one element, so fuel equal to the
length of the list always suffices (`chunkLoopF_isSome`).  `none` means the
fuel ran out. -/
def chunkLoopF (size overlap : Int) : Nat → List (List Char) → Option (List (List Char))
  | _, [] => some []
  | 0, _ :: _ => none
  | fuel + 1, e :: rest =>
    let l := e :: rest
    let cnt := spanWords l size
    if cnt = l.length then
      some [(l.take cnt).flatten]
    else
      let wta := if size - overlap ≤ 0 then 1 else size - overlap
      let a0 := spanWords l wta
      let a := if a0 = 0 then 1 else a0
      if l.length ≤ a then
        some [(l.take cnt).flatten]
      else
        Option.map (fun cs => (l.take cnt).flatten :: cs) (chunkLoopF size overlap fuel (l.drop a))

/-- Embedding of `basic_word_chunker` of chunking.py.  A raised
`ValueError` is embedded as `Except.error` carrying the message. -/
def basic_word_chunker (text : List Char) (chunk_size chunk_overlap : Int) :
    Except (List Char) (List (List Char)) :=
  if text.isEmpty then .ok []
  else if chunk_size ≤ chunk_overlap then
    .error ("Chunk size must be greater than chunk overlap.".toList)
  else
    let ws := splitRuns text
    if ws.isEmpty then .ok []
    else .ok ((chunkLoopF chunk_size chunk_overlap ws.length ws).getD [])

/-- Number of words of a text, counted the way the chunker counts them. -/
def numWords (text : List Char) : Nat :=
  countW (splitRuns text)

/-- The overlap relation between the element spans `[pq.1, pq.2)` and
`[pq'.1, pq'.2)` of two consecutive chunks over the element list `l`: the
second chunk starts no later than the first one ends and ends no earlier,
and the shared element region `[pq'.1, pq.2)` contains at least
`min overlap remaining` words, where `remaining` is the number of words from
the second chunk's start to the end of the input. -/
def chunkRel (overlap : Int) (l : List (List Char)) (pq pq' : Nat × Nat) : Prop :=
  pq'.1 ≤ pq.2 ∧ pq.2 ≤ pq'.2 ∧
    min overlap (countW (l.drop pq'.1) : Int) ≤ (countW ((l.drop pq'.1).take (pq.2 - pq'.1)) : Int)

/-- Character position of the boundary before element `i` of the element
list `l`: the length of the flattening of the first `i` elements. -/
def clenAt (l : List (List Char)) (i : Nat) : Nat :=
  ((l.take i).flatten).length

/-! ### Ingest orchestrator (scripts/ingest_docs.py)

Collaborators are oracles: `fetch` models `GCSClient.download_text_file`
(returns `none` when the file is missing or the download fails), `embed`
models `VertexAIClient.get_text_embeddings` as seen by the orchestrator
(`none` for a null return, otherwise one optional vector per chunk), and
`uuid` models the fresh `uuid.uuid4()` token appended to each record id
(indexed per document by the chunk index).  Embedding vectors are opaque
`List Int`: no claim inspects their numeric content. -/

/-- One record accumulated in `all_embeddings_for_vector_store` (lines
86-97 of ingest_docs.py): the id, the vector and the metadata fields. -/
structure IngestRecord where
  id : List Char
  embedding : List Int
  source_document_name : List Char
  chunk_index : Nat
  text_preview : List Char
deriving Repr, DecidableEq

/-- The `text_preview` metadata value: `chunk_text[:200] + "..."` when the
chunk is longer than 200 characters, else the chunk itself. -/
def text_preview_of (chunk : List Char) : List Char :=
  if 200 < chunk.length then chunk.take 200 ++ "...".toList else chunk

/-- Lines 82-101 of ingest_docs.py: one record per chunk whose embedding is
non-null, skipping chunks with a missing embedding.  The Python loop indexes
`chunk_embeddings[i]`; it is only reached when the two lists have equal
length, where indexing coincides with zipping. -/
def buildRecords (uuid : Nat → List Char) (doc : List Char)
    (chunks : List (List Char)) (embs : List (Option (List Int))) : List IngestRecord :=
  ((chunks.zip embs).enum).filterMap fun ie =>
    match ie.2.2 with
    | none => none
    | some e =>
      some { id := doc ++ "_chunk_".toList ++ uuid ie.1
             embedding := e
             source_document_name := doc
             chunk_index := ie.1
             text_preview := text_preview_of ie.2.1 }

/-- Lines 70-101 of ingest_docs.py: what happens to a document after its
text has been chunked — skip on zero chunks (no embedding call), skip on a
null embedding batch or a count mismatch, otherwise build the records. -/
def afterChunking (embed : List (List Char) → Option (List (Option (List Int))))
    (uuid : Nat → List Char) (doc : List Char) (chunks : List (List Char)) : List IngestRecord :=
  if chunks.isEmpty then []
  else
    match embed chunks with
    | none => []
    | some embs => if embs.length ≠ chunks.length then [] else buildRecords uuid doc chunks embs

/-- Lines 55-101 of ingest_docs.py: the body of the per-document loop.
Returns the records this document contributes; a `ValueError` raised by the
chunker propagates as `Except.error` (there is no try/except around the loop
body). The guard on line 60 is `text_content is None or not
text_content.strip()`: `none`, the empty text and all-whitespace text are
all skipped. -/
def processDoc (fetch : List Char → Option (List Char))
    (embed : List (List Char) → Option (List (Option (List Int))))
    (uuid : List Char → Nat → List Char) (chunk_size chunk_overlap : Int)
    (doc : List Char) : Except (List Char) (List IngestRecord) :=
  match fetch doc with
  | none => .ok []
  | some t =>
    if t.all Char.isWhitespace then .ok []
    else (basic_word_chunker t chunk_size chunk_overlap).map (afterChunking embed (uuid doc) doc)

/-- The per-document loop of `process_and_ingest_documents` (lines 53-101 of
ingest_docs.py), accumulating `all_embeddings_for_vector_store` across the
batch.  An uncaught exception from one document's processing aborts the
whole fold, exactly as the uncaught Python exception aborts the function. -/
def process_and_ingest_documents (fetch : List Char → Option (List Char))
    (embed : List (List Char) → Option (List (Option (List Int))))
    (uuid : List Char → Nat → List Char) (chunk_size chunk_overlap : Int)
    (files : List (List Char)) : Except (List Char) (List IngestRecord) :=
  files.foldlM
    (fun acc d => (processDoc fetch embed uuid chunk_size chunk_overlap d).map (fun rs => acc ++ rs))
    []

/-! ### Query orchestrator (scripts/query_rag.py) and the vector store
client wrapper (src/gcp_clients/vector_store_client.py) -/

/-- A `MatchNeighbor`: the vector store returns only an id and a distance.
The float distance is embedded as `Int`; it is only ever printed. -/
structure Neighbor where
  id : List Char
  distance : Int
deriving Repr, DecidableEq

/-- The outcome of `search_and_answer`, one constructor per terminal print
path of the Python function (which communicates only by printing). -/
inductive QueryOutcome where
  | embedFailure
  | generalKnowledge (answer : List Char)
  | generalKnowledgeFailed
  | noContext
  | grounded (answer : List Char) (sources : List (List Char))
  | groundedFailed
deriving Repr, DecidableEq

/-- The separator used on line 107-108 of query_rag.py. -/
def chunkSep : List Char := "_chunk_".toList

/-- Python `s.split(pat)[0]`: the prefix of `s` before the first occurrence
of `pat` (the whole of `s` when `pat` does not occur). -/
def splitFirst (pat : List Char) : List Char → List Char
  | [] => []
  | c :: rest => if pat.isPrefixOf (c :: rest) then [] else c :: splitFirst pat rest

/-- Python `pat in s` for strings: `pat` occurs contiguously in `s`. -/
def hasSubstring (pat : List Char) : List Char → Bool
  | [] => pat.isEmpty
  | c :: rest => pat.isPrefixOf (c :: rest) || hasSubstring pat rest

/-- Python string `<` (code-point lexicographic order), used by `sorted`. -/
def strLt : List Char → List Char → Bool
  | [], [] => false
  | [], _ :: _ => true
  | _ :: _, [] => false
  | a :: as, b :: bs => if a < b then true else if a = b then strLt as bs else false

/-- Insert into a strictly sorted list, dropping duplicates. -/
def insertSorted (x : List Char) : List (List Char) → List (List Char)
  | [] => [x]
  | y :: ys => if strLt x y then x :: y :: ys else if x = y then y :: ys else y :: insertSorted x ys

/-- Python `sorted(list(s))` for a set `s` of strings: the strictly
increasing enumeration of the collected elements.  The Python code builds
`source_documents_cited` as a `set` and sorts it when printing (line 138);
insertion sort with duplicate dropping is that set-then-sort composite. -/
def sortedSources (ids : List (List Char)) : List (List Char) :=
  ids.foldr insertSorted []

/-- Lines 94-108 and 138 of query_rag.py: the cited source documents — for
each neighbor whose id contains `"_chunk_"`, the prefix of the id before the
first `"_chunk_"`, de-duplicated and sorted. -/
def citedSources (ns : List Neighbor) : List (List Char) :=
  sortedSources (ns.filterMap fun n =>
    if hasSubstring chunkSep n.id then some (splitFirst chunkSep n.id) else none)

/-- Line 104 of query_rag.py: the placeholder context fragment built for one
neighbor. -/
def contextPart (n : Neighbor) : List Char :=
  "Retrieved information related to ID ".toList ++ n.id ++ ".".toList

/-- Lines 119-126 of query_rag.py: the grounded prompt. -/
def promptForLLM (context q : List Char) : List Char :=
  ("You are a helpful AI assistant. Please answer the user\x27s question based ONLY on the following " ++
   "provided context. If the context does not contain the information to answer the question, " ++
   "please state that you don\x27t have enough information from the provided documents.\n\n" ++
   "CONTEXT:\n").toList ++ context ++ "\n\nQUESTION:\n".toList ++ q ++ "\n\nANSWER:".toList

/-- Embedding of `search_and_answer` of query_rag.py, from the query-embedding step on
(client construction is outside the model).  `embedQuery` models
`get_text_embeddings([q])[0]` together with the falsiness test on line 40:
a null or empty (`not query_embedding_list[0]`) vector is a failure.
`findNeighbors` models `VectorStoreClient.find_neighbors`, `llm` models
`get_llm_completion` (null return = `none`). -/
def search_and_answer (embedQuery : List Char → Option (List Int))
    (findNeighbors : List Int → Nat → List Neighbor)
    (llm : List Char → Option (List Char))
    (topK : Nat) (q : List Char) : QueryOutcome :=
  match embedQuery q with
  | none => .embedFailure
  | some [] => .embedFailure
  | some (x :: xs) =>
    let neighbors := findNeighbors (x :: xs) topK
    if neighbors.isEmpty then
      match llm q with
      | some r => .generalKnowledge r
      | none => .generalKnowledgeFailed
    else
      let parts := neighbors.map contextPart
      if parts.isEmpty then .noContext
      else
        match llm (promptForLLM (List.intercalate "\n".toList parts) q) with
        | some r => .grounded r (citedSources neighbors)
        | none => .groundedFailed

/-- Embedding of `VectorStoreClient.find_neighbors` (lines 110-127 of
vector_store_client.py): the underlying `index_endpoint.match` call is an
oracle that either returns the response (a list of neighbor lists, one per
query) or raises; the wrapper takes `response[0] if response else []` and
catches every exception, returning `[]`. -/
def find_neighbors (matchCall : List Int → Nat → Except (List Char) (List (List Neighbor)))
    (query_embedding : List Int) (num_neighbors : Nat) : List Neighbor :=
  match matchCall query_embedding num_neighbors with
  | .error _ => []
  | .ok [] => []
  | .ok (r :: _) => r

/-! ### Helper lemmas: word counting and the two inner loops -/

theorem countW_nil : countW [] = 0 := rfl

theorem countW_cons_space {e : List Char} (hs : strIsSpace e = true) (l : List (List Char)) :
    countW (e :: l) = countW l := by
  simp [countW, wordElems, List.filter_cons, hs]

theorem countW_cons_word {e : List Char} (hs : strIsSpace e = false) (l : List (List Char)) :
    countW (e :: l) = countW l + 1 := by
  simp [countW, wordElems, List.filter_cons, hs, Nat.add_comm]

theorem countW_append (l₁ l₂ : List (List Char)) :
    countW (l₁ ++ l₂) = countW l₁ + countW l₂ := by
  simp [countW, wordElems, List.filter_append]

theorem spanWords_le_length : ∀ (l : List (List Char)) (k : Int), spanWords l k ≤ l.length
  | [], _ => Nat.le_refl 0
  | e :: rest, k => by
    simp only [spanWords, List.length_cons]
    split
    · exact Nat.zero_le _
    · have := spanWords_le_length rest (if strIsSpace e then k else k - 1)
      omega

theorem spanWords_mono (l : List (List Char)) : ∀ {k k' : Int}, k ≤ k' →
    spanWords l k ≤ spanWords l k' := by
  induction l with
  | nil => intro k k' _; exact Nat.le_refl 0
  | cons e rest ih =>
    intro k k' h
    simp only [spanWords]
    by_cases hk : k ≤ 0
    · simp [hk]
    · have hk' : ¬ k' ≤ 0 := by omega
      simp only [hk, hk', if_false]
      by_cases hs : strIsSpace e = true
      · simp only [hs, if_true]
        exact Nat.add_le_add_left (ih h) 1
      · simp only [hs, Bool.false_eq_true, if_false]
        exact Nat.add_le_add_left (ih (by omega)) 1

theorem spanWords_pos {l : List (List Char)} (hl : l ≠ []) {k : Int} (hk : 1 ≤ k) :
    1 ≤ spanWords l k := by
  cases l with
  | nil => exact absurd rfl hl
  | cons e rest =>
    simp only [spanWords]
    split <;> omega

theorem countW_take_spanWords (l : List (List Char)) : ∀ {k : Int}, 0 ≤ k →
    spanWords l k < l.length → (countW (l.take (spanWords l k)) : Int) = k := by
  induction l with
  | nil => intro k _ h; simp [spanWords] at h
  | cons e rest ih =>
    intro k hk h
    by_cases hk0 : k ≤ 0
    · have hz : k = 0 := le_antisymm hk0 hk
      subst hz
      simp [spanWords, countW_nil]
    · have hsp : spanWords (e :: rest) k
          = 1 + spanWords rest (if strIsSpace e then k else k - 1) := by
        simp [spanWords, hk0]
      rw [hsp] at h ⊢
      rw [Nat.add_comm 1 _, List.take_succ_cons]
      by_cases hs : strIsSpace e = true
      · rw [countW_cons_space hs]
        simp only [hs, if_true] at h ⊢
        have h' : spanWords rest k < rest.length := by
          simp only [List.length_cons] at h; omega
        exact ih hk h'
      · have hs' : strIsSpace e = false := by simp [hs]
        rw [countW_cons_word hs']
        simp only [hs', Bool.false_eq_true, if_false] at h ⊢
        have h' : spanWords rest (k - 1) < rest.length := by
          simp only [List.length_cons] at h; omega
        have := ih (by omega : (0:Int) ≤ k - 1) h'
        push_cast
        omega

theorem spanWords_add (l : List (List Char)) : ∀ {j k : Int}, 0 ≤ j → j ≤ k →
    spanWords l j < l.length →
    spanWords l k = spanWords l j + spanWords (l.drop (spanWords l j)) (k - j) := by
  induction l with
  | nil => intro j k _ _ h; simp [spanWords] at h
  | cons e rest ih =>
    intro j k hj hjk h
    by_cases hj0 : j ≤ 0
    · have hz : j = 0 := le_antisymm hj0 hj
      subst hz
      simp [spanWords]
    · have hk0 : ¬ k ≤ 0 := by omega
      have hspj : spanWords (e :: rest) j
          = 1 + spanWords rest (if strIsSpace e then j else j - 1) := by
        simp [spanWords, hj0]
      have hspk : spanWords (e :: rest) k
          = 1 + spanWords rest (if strIsSpace e then k else k - 1) := by
        simp [spanWords, hk0]
      rw [hspj] at h ⊢
      rw [hspk]
      by_cases hs : strIsSpace e = true
      · simp only [hs, if_true] at h ⊢
        have h' : spanWords rest j < rest.length := by
          simp only [List.length_cons] at h; omega
        have hih := ih hj hjk h'
        rw [Nat.add_comm 1 (spanWords rest j), List.drop_succ_cons]
        omega
      · simp only [hs, Bool.false_eq_true, if_false] at h ⊢
        have h' : spanWords rest (j - 1) < rest.length := by
          simp only [List.length_cons] at h; omega
        have hih := ih (by omega : (0:Int) ≤ j - 1) (by omega : j - 1 ≤ k - 1) h'
        have harg : k - 1 - (j - 1) = k - j := by ring
        rw [harg] at hih
        rw [Nat.add_comm 1 (spanWords rest (j - 1)), List.drop_succ_cons]
        omega

theorem spanWords_lt_length (l : List (List Char)) : ∀ {k : Int}, 0 ≤ k →
    k < (countW l : Int) → spanWords l k < l.length := by
  induction l with
  | nil => intro k hk h; rw [countW_nil] at h; omega
  | cons e rest ih =>
    intro k hk h
    by_cases hk0 : k ≤ 0
    · simp only [spanWords, hk0, if_true, List.length_cons]
      omega
    · simp only [spanWords, hk0, if_false, List.length_cons]
      by_cases hs : strIsSpace e = true
      · rw [countW_cons_space hs] at h
        simp only [hs, if_true]
        have := ih hk h
        omega
      · have hs' : strIsSpace e = false := by simp [hs]
        rw [countW_cons_word hs'] at h
        simp only [hs', Bool.false_eq_true, if_false]
        have := ih (by omega : (0:Int) ≤ k - 1) (by push_cast at h ⊢; omega)
        omega

theorem spanWords_eq_length_of_countW_lt (l : List (List Char)) : ∀ {k : Int},
    (countW l : Int) < k → spanWords l k = l.length := by
  induction l with
  | nil => intro k _; rfl
  | cons e rest ih =>
    intro k h
    have hk0 : ¬ k ≤ 0 := by
      have : (0:Int) ≤ countW (e :: rest) := Int.natCast_nonneg _
      omega
    simp only [spanWords, hk0, if_false, List.length_cons]
    by_cases hs : strIsSpace e = true
    · rw [countW_cons_space hs] at h
      simp only [hs, if_true, ih h]
      omega
    · have hs' : strIsSpace e = false := by simp [hs]
      rw [countW_cons_word hs'] at h
      simp only [hs', Bool.false_eq_true, if_false]
      have : spanWords rest (k - 1) = rest.length := ih (by push_cast at h ⊢; omega)
      omega

theorem countW_pos_of_getLast {l : List (List Char)} {e : List Char}
    (h : l.getLast? = some e) (hw : strIsSpace e = false) : 1 ≤ countW l := by
  have hmem : e ∈ l := List.mem_of_mem_getLast? (by rw [h]; rfl)
  have : e ∈ wordElems l := by
    simp [wordElems, List.mem_filter, hmem, hw]
  have := List.length_pos_of_mem this
  simpa [countW] using this

theorem spanWords_eq_length_of_last_word (l : List (List Char)) : ∀ {k : Int} {e : List Char},
    (countW l : Int) ≤ k → l.getLast? = some e → strIsSpace e = false →
    spanWords l k = l.length := by
  induction l with
  | nil => intro k e _ h _; simp at h
  | cons f rest ih =>
    intro k e hc hl hw
    have hk0 : ¬ k ≤ 0 := by
      have := countW_pos_of_getLast hl hw
      omega
    cases rest with
    | nil =>
      simp [spanWords, hk0]
    | cons g rest' =>
      have hl' : (g :: rest').getLast? = some e := by
        rwa [List.getLast?_cons_cons] at hl
      have hsp : spanWords (f :: g :: rest') k
          = 1 + spanWords (g :: rest') (if strIsSpace f then k else k - 1) := by
        simp [spanWords, hk0]
      rw [hsp]
      by_cases hs : strIsSpace f = true
      · rw [countW_cons_space hs] at hc
        simp only [hs, if_true, ih hc hl' hw, List.length_cons]
        omega
      · have hs' : strIsSpace f = false := by simp [hs]
        rw [countW_cons_word hs'] at hc
        simp only [hs', Bool.false_eq_true, if_false]
        have : spanWords (g :: rest') (k - 1) = (g :: rest').length :=
          ih (by push_cast at hc ⊢; omega) hl' hw
        simp only [this, List.length_cons]
        omega

/-! ### Helper lemmas: the whitespace-preserving split -/

theorem splitRuns_spec (t : List Char) :
    (splitRuns t).flatten = t ∧
    ∀ r ∈ splitRuns t, r ≠ [] ∧ ∀ a ∈ r, ∀ b ∈ r, a.isWhitespace = b.isWhitespace := by
  induction t with
  | nil => simp [splitRuns]
  | cons c cs ih =>
    obtain ⟨hjoin, hruns⟩ := ih
    simp only [splitRuns]
    cases hsr : splitRuns cs with
    | nil =>
      have hcs : cs = [] := by
        rw [hsr] at hjoin; simpa using hjoin.symm
      subst hcs
      simp
    | cons r rs =>
      rw [hsr] at hjoin hruns
      cases r with
      | nil =>
        exact absurd rfl (hruns [] (List.mem_cons_self _ _)).1
      | cons d ds =>
        obtain ⟨-, hhom⟩ := hruns (d :: ds) (List.mem_cons_self _ _)
        by_cases hcd : (c.isWhitespace == d.isWhitespace) = true
        · simp only [hcd, if_true]
          constructor
          · simp only [List.flatten_cons] at hjoin ⊢
            simp [hjoin]
          · intro r' hr'
            rcases List.mem_cons.mp hr' with hEq | hMem
            · subst hEq
              refine ⟨by simp, ?_⟩
              have hcls : c.isWhitespace = d.isWhitespace := by
                simpa using hcd
              intro a ha b hb
              have classEq : ∀ x ∈ c :: d :: ds, x.isWhitespace = d.isWhitespace := by
                intro x hx
                rcases List.mem_cons.mp hx with hx | hx
                · subst hx; exact hcls
                · exact hhom x hx d (List.mem_cons_self _ _)
              rw [classEq a ha, classEq b hb]
            · exact hruns r' (List.mem_cons_of_mem _ hMem)
        · simp only [hcd, if_false]
          constructor
          · simp only [List.flatten_cons] at hjoin ⊢
            simp [hjoin]
          · intro r' hr'
            rcases List.mem_cons.mp hr' with hEq | hMem
            · subst hEq
              exact ⟨by simp, by intro a ha b hb; simp at ha hb; rw [ha, hb]⟩
            · exact hruns r' hMem

theorem flatten_splitRuns (t : List Char) : (splitRuns t).flatten = t :=
  (splitRuns_spec t).1

theorem splitRuns_runs_ne_nil {t : List Char} {r : List Char} (hr : r ∈ splitRuns t) :
    r ≠ [] :=
  ((splitRuns_spec t).2 r hr).1

theorem splitRuns_ne_nil {t : List Char} (h : t ≠ []) : splitRuns t ≠ [] := by
  intro h0
  apply h
  have hj := flatten_splitRuns t
  rw [h0] at hj
  simpa using hj.symm

theorem flatten_getLast? : ∀ {sp : List (List Char)} {r : List Char},
    sp.getLast? = some r → r ≠ [] → sp.flatten.getLast? = r.getLast? := by
  intro sp
  induction sp with
  | nil => intro r h _; simp at h
  | cons s sp ih =>
    intro r h hr
    cases sp with
    | nil =>
      simp only [List.getLast?_singleton, Option.some.injEq] at h
      subst h
      simp
    | cons s' sp' =>
      rw [List.getLast?_cons_cons] at h
      have hne : (s' :: sp').flatten ≠ [] := by
        intro h0
        rw [List.flatten_eq_nil_iff] at h0
        exact hr (h0 r (List.mem_of_mem_getLast? (by rw [h]; rfl)))
      rw [List.flatten_cons, List.getLast?_append_of_ne_nil _ hne]
      exact ih h hr

theorem last_run_word {t : List Char} {c : Char}
    (hlast : t.getLast? = some c) (hc : c.isWhitespace = false) :
    ∀ {r : List Char}, (splitRuns t).getLast? = some r → strIsSpace r = false := by
  intro r hr
  have hne : r ≠ [] := splitRuns_runs_ne_nil (List.mem_of_mem_getLast? (by rw [hr]; rfl))
  have h1 : (splitRuns t).flatten.getLast? = r.getLast? := flatten_getLast? hr hne
  rw [flatten_splitRuns, hlast] at h1
  have hcr : c ∈ r := List.mem_of_mem_getLast? (by rw [← h1]; rfl)
  have hall : r.all Char.isWhitespace = false := by
    cases hb : r.all Char.isWhitespace with
    | false => rfl
    | true =>
      rw [List.all_eq_true] at hb
      have := hb c hcr
      rw [hc] at this
      exact absurd this (by simp)
  simp [strIsSpace, hall]

/-! ### Helper lemmas: the outer chunking loop -/

theorem chunkLoopF_cons (size overlap : Int) (fuel : Nat) (e : List Char)
    (rest : List (List Char)) :
    chunkLoopF size overlap (fuel + 1) (e :: rest) =
      (if spanWords (e :: rest) size = (e :: rest).length then
        some [((e :: rest).take (spanWords (e :: rest) size)).flatten]
      else
        if (e :: rest).length ≤
            (if spanWords (e :: rest) (if size - overlap ≤ 0 then 1 else size - overlap) = 0
             then 1
             else spanWords (e :: rest) (if size - overlap ≤ 0 then 1 else size - overlap)) then
          some [((e :: rest).take (spanWords (e :: rest) size)).flatten]
        else
          Option.map (fun cs => ((e :: rest).take (spanWords (e :: rest) size)).flatten :: cs)
            (chunkLoopF size overlap fuel
              ((e :: rest).drop
                (if spanWords (e :: rest) (if size - overlap ≤ 0 then 1 else size - overlap) = 0
                 then 1
                 else spanWords (e :: rest) (if size - overlap ≤ 0 then 1 else size - overlap))))) :=
  rfl

theorem chunkLoopF_isSome (size overlap : Int) :
    ∀ (fuel : Nat) (l : List (List Char)), l.length ≤ fuel →
      (chunkLoopF size overlap fuel l).isSome := by
  intro fuel
  induction fuel with
  | zero =>
    intro l h
    cases l with
    | nil => simp [chunkLoopF]
    | cons e rest => simp at h
  | succ fuel ih =>
    intro l h
    cases l with
    | nil => simp [chunkLoopF]
    | cons e rest =>
      rw [chunkLoopF_cons]
      set wta := if size - overlap ≤ 0 then 1 else size - overlap with hwta
      set a := if spanWords (e :: rest) wta = 0 then 1 else spanWords (e :: rest) wta with ha
      have ha1 : 1 ≤ a := by rw [ha]; split <;> omega
      split
      · simp
      · split
        · simp
        · rw [Option.isSome_map']
          apply ih
          simp only [List.length_drop, List.length_cons] at h ⊢
          omega

/-- When the first pass of the loop consumes the whole element list, the
result is the single chunk joining everything. -/
theorem chunkLoopF_single {size overlap : Int} {fuel : Nat} {l : List (List Char)}
    (hl : l ≠ []) (hfuel : 1 ≤ fuel) (hspan : spanWords l size = l.length) :
    chunkLoopF size overlap fuel l = some [l.flatten] := by
  cases l with
  | nil => exact absurd rfl hl
  | cons e rest =>
    cases fuel with
    | zero => omega
    | succ fuel =>
      rw [chunkLoopF_cons]
      simp [hspan]

theorem getLast?_cons_of_ne_nil {α : Type _} (x : α) {l : List α} (h : l ≠ []) :
    (x :: l).getLast? = l.getLast? := by
  cases l with
  | nil => exact absurd rfl h
  | cons y ys => exact List.getLast?_cons_cons

/-- Structure of the chunk list produced by the loop under valid parameters:
every chunk is the flattening of a contiguous element span, the first span
starts at element 0, the last span ends at the last element, and consecutive
spans satisfy `chunkRel` (they overlap, and the shared region carries at
least `min overlap remaining` words). -/
theorem chunkLoopF_spans (s v : Int) (hv : 0 < v) (hvs : v < s) :
    ∀ (fuel : Nat) (l : List (List Char)), l ≠ [] → l.length ≤ fuel →
    ∃ (sp : List (Nat × Nat)) (cs : List (List Char)),
      chunkLoopF s v fuel l = some cs ∧
      sp ≠ [] ∧
      cs = sp.map (fun pq => ((l.drop pq.1).take (pq.2 - pq.1)).flatten) ∧
      sp.head? = some (0, spanWords l s) ∧
      (sp.map Prod.snd).getLast? = some l.length ∧
      (∀ pq ∈ sp, pq.1 ≤ pq.2 ∧ pq.2 ≤ l.length) ∧
      List.Chain' (chunkRel v l) sp := by
  intro fuel
  induction fuel with
  | zero =>
    intro l hl h
    cases l with
    | nil => exact absurd rfl hl
    | cons e rest => simp at h
  | succ fuel ih =>
    intro l hl hlen
    cases l with
    | nil => exact absurd rfl hl
    | cons e rest =>
    by_cases hterm : spanWords (e :: rest) s = (e :: rest).length
    · refine ⟨[(0, (e :: rest).length)], [(e :: rest).flatten], ?_, ?_, ?_, ?_, ?_, ?_, ?_⟩
      · exact chunkLoopF_single (by simp) (by omega) hterm
      · simp
      · simp
      · simp [hterm]
      · simp
      · intro pq hpq
        simp only [List.mem_singleton] at hpq
        subst hpq
        exact ⟨Nat.zero_le _, Nat.le_refl _⟩
      · simp
    · have hcnt_lt : spanWords (e :: rest) s < (e :: rest).length :=
        lt_of_le_of_ne (spanWords_le_length _ s) hterm
      have ha1 : 1 ≤ spanWords (e :: rest) (s - v) :=
        spanWords_pos (by simp) (by omega)
      have hale : spanWords (e :: rest) (s - v) ≤ spanWords (e :: rest) s :=
        spanWords_mono _ (by omega)
      have halt : spanWords (e :: rest) (s - v) < (e :: rest).length :=
        lt_of_le_of_lt hale hcnt_lt
      have hstep : chunkLoopF s v (fuel + 1) (e :: rest)
          = Option.map (fun cs => ((e :: rest).take (spanWords (e :: rest) s)).flatten :: cs)
              (chunkLoopF s v fuel ((e :: rest).drop (spanWords (e :: rest) (s - v)))) := by
        rw [chunkLoopF_cons]
        rw [if_neg (by omega : ¬ s - v ≤ 0)]
        rw [if_neg (by omega : ¬ spanWords (e :: rest) (s - v) = 0)]
        rw [if_neg hterm, if_neg (by omega : ¬ (e :: rest).length ≤ spanWords (e :: rest) (s - v))]
      -- the loop recurses on the suffix after the advance
      have hdrop_ne : (e :: rest).drop (spanWords (e :: rest) (s - v)) ≠ [] := by
        intro h0
        have := congrArg List.length h0
        simp only [List.length_drop, List.length_nil] at this
        omega
      have hdrop_len : ((e :: rest).drop (spanWords (e :: rest) (s - v))).length ≤ fuel := by
        simp only [List.length_drop]
        simp only [List.length_cons] at hlen ⊢
        omega
      obtain ⟨sp', cs', heq', hne', hmap', hhead', hlast', hbound', hchain'⟩ :=
        ih ((e :: rest).drop (spanWords (e :: rest) (s - v))) hdrop_ne hdrop_len
      -- abbreviations
      set L := e :: rest with hL
      set a := spanWords L (s - v) with hadef
      set cnt := spanWords L s with hcnt
      -- the decomposition of the first span through the advance point
      have hsplit : cnt = a + spanWords (L.drop a) v := by
        have h0 : (0:Int) ≤ s - v := by omega
        have h1 : s - v ≤ s := by omega
        have := spanWords_add L h0 h1 halt
        rw [show s - (s - v) = v by ring] at this
        exact this
      refine ⟨(0, cnt) :: sp'.map (fun pq => (a + pq.1, a + pq.2)),
        (L.take cnt).flatten :: cs', ?_, ?_, ?_, ?_, ?_, ?_, ?_⟩
      · rw [hstep, heq']
        rfl
      · simp
      · rw [hmap']
        simp only [List.map_cons, List.map_map, List.drop_zero, Nat.sub_zero]
        refine congrArg₂ _ rfl ?_
        apply List.map_congr_left
        intro pq _
        simp only [Function.comp]
        rw [List.drop_drop, Nat.add_sub_add_left]
      · rfl
      · have hsp'cons : sp' ≠ [] := hne'
        rw [List.map_cons, getLast?_cons_of_ne_nil _ (by simp [hsp'cons])]
        rw [List.map_map, List.getLast?_map]
        rw [List.getLast?_map] at hlast'
        rcases hpqL : sp'.getLast? with _ | pqL
        · rw [hpqL] at hlast'; simp at hlast'
        · rw [hpqL] at hlast'
          have h2 : pqL.2 = (L.drop a).length := Option.some.inj hlast'
          rw [List.length_drop] at h2
          show some ((Prod.snd ∘ fun pq => (a + pq.1, a + pq.2)) pqL) = some L.length
          have : a + pqL.2 = L.length := by omega
          simp only [Function.comp]
          rw [this]
      · intro pq hpq
        rcases List.mem_cons.mp hpq with hEq | hMem
        · subst hEq
          exact ⟨Nat.zero_le _, le_of_lt hcnt_lt⟩
        · obtain ⟨pq', hpq', hshift⟩ := List.mem_map.mp hMem
          obtain ⟨h1, h2⟩ := hbound' pq' hpq'
          subst hshift
          rw [List.length_drop] at h2
          constructor
          · show a + pq'.1 ≤ a + pq'.2
            omega
          · show a + pq'.2 ≤ L.length
            omega
      · -- the chain: new head against the shifted head, then the shifted tail
        have hchain_shift : List.Chain' (chunkRel v L) (sp'.map (fun pq => (a + pq.1, a + pq.2))) := by
          rw [List.chain'_map]
          refine List.Chain'.imp ?_ hchain'
          intro pq pq' hrel
          obtain ⟨h1, h2, h3⟩ := hrel
          refine ⟨Nat.add_le_add_left h1 a, Nat.add_le_add_left h2 a, ?_⟩
          rw [List.drop_drop] at h3
          simpa [Nat.add_sub_add_left] using h3
        have hw_lt : spanWords (L.drop a) v < (L.drop a).length := by
          rw [List.length_drop]
          omega
        have hcw : (countW ((L.drop a).take (spanWords (L.drop a) v)) : Int) = v :=
          countW_take_spanWords (L.drop a) (by omega) hw_lt
        cases hsp'c : sp' with
        | nil => exact absurd hsp'c hne'
        | cons q0 sp'' =>
          rw [hsp'c] at hhead'
          simp only [List.head?_cons, Option.some.injEq] at hhead'
          subst hhead'
          rw [hsp'c, List.map_cons] at hchain_shift
          rw [List.map_cons, List.chain'_cons]
          refine ⟨⟨?_, ?_, ?_⟩, hchain_shift⟩
          · show a + 0 ≤ cnt
            omega
          · have hmono : spanWords (L.drop a) v ≤ spanWords (L.drop a) s :=
              spanWords_mono _ (by omega)
            show cnt ≤ a + spanWords (L.drop a) s
            omega
          · show min v (countW (L.drop (a + 0)) : Int)
                ≤ (countW ((L.drop (a + 0)).take (cnt - (a + 0))) : Int)
            rw [Nat.add_zero, show cnt - a = spanWords (L.drop a) v by omega, hcw]
            exact min_le_left _ _

/-! ### Helper lemmas: element spans as character ranges -/

theorem clenAt_zero (l : List (List Char)) : clenAt l 0 = 0 := rfl

theorem clenAt_length (l : List (List Char)) : clenAt l l.length = l.flatten.length := by
  simp [clenAt]

theorem clenAt_add {l : List (List Char)} {p q : Nat} (h : p ≤ q) :
    clenAt l q = clenAt l p + (((l.drop p).take (q - p)).flatten).length := by
  have htake : l.take q = l.take p ++ (l.drop p).take (q - p) := by
    rw [← List.take_add]
    congr 1
    omega
  simp [clenAt, htake]

theorem clenAt_mono {l : List (List Char)} {p q : Nat} (h : p ≤ q) :
    clenAt l p ≤ clenAt l q := by
  rw [clenAt_add h]
  omega

theorem flatten_slice {l : List (List Char)} {p q : Nat} (hpq : p ≤ q) :
    ((l.drop p).take (q - p)).flatten
      = (l.flatten.drop (clenAt l p)).take (clenAt l q - clenAt l p) := by
  have hdrop : l.flatten.drop (clenAt l p) = (l.drop p).flatten := by
    have h1 : l.flatten = (l.take p).flatten ++ (l.drop p).flatten := by
      rw [← List.flatten_append, List.take_append_drop]
    rw [h1, clenAt]
    exact List.drop_left _ _
  rw [hdrop, clenAt_add hpq, Nat.add_sub_cancel_left]
  have h2 : (l.drop p).flatten
      = ((l.drop p).take (q - p)).flatten ++ ((l.drop p).drop (q - p)).flatten := by
    rw [← List.flatten_append, List.take_append_drop]
  rw [h2, List.take_left]

/-- One non-terminal iteration of the loop under valid parameters: emit the
current chunk and recurse after the advance. -/
theorem chunkLoopF_step {s v : Int} {fuel : Nat} {l : List (List Char)} (hl : l ≠ [])
    (hv : 0 < v) (hvs : v < s) (hfuel : 1 ≤ fuel)
    (hterm : spanWords l s ≠ l.length) :
    chunkLoopF s v fuel l
      = Option.map (fun cs => (l.take (spanWords l s)).flatten :: cs)
          (chunkLoopF s v (fuel - 1) (l.drop (spanWords l (s - v)))) := by
  cases l with
  | nil => exact absurd rfl hl
  | cons e rest =>
    cases fuel with
    | zero => omega
    | succ fuel =>
      have hcnt_lt : spanWords (e :: rest) s < (e :: rest).length :=
        lt_of_le_of_ne (spanWords_le_length _ s) hterm
      have ha1 : 1 ≤ spanWords (e :: rest) (s - v) :=
        spanWords_pos (by simp) (by omega)
      have hale : spanWords (e :: rest) (s - v) ≤ spanWords (e :: rest) s :=
        spanWords_mono _ (by omega)
      rw [chunkLoopF_cons]
      rw [if_neg (by omega : ¬ s - v ≤ 0)]
      rw [if_neg (by omega : ¬ spanWords (e :: rest) (s - v) = 0)]
      rw [if_neg hterm, if_neg (by omega : ¬ (e :: rest).length ≤ spanWords (e :: rest) (s - v))]
      rfl

/-! ### The claims -/

/-- C1: for every non-empty input text and parameters with
`0 < chunk_overlap < chunk_size`, `basic_word_chunker` succeeds and returns a
non-empty chunk sequence together with element spans over the
word/whitespace tokenization such that (1) each chunk is both the
flattening of its contiguous token span and the verbatim character slice of
the input at the corresponding character range (so no synthetic spaces are
inserted and no original spacing is lost), (2) the character ranges start at
0, end at the input's end, and each next range starts no later than the
previous one ends — their union covers the whole input — and (3) every pair
of consecutive chunks satisfies `chunkRel`: their shared element region
carries at least `min chunk_overlap remaining` words. -/
theorem C1_chunker_coverage_overlap (text : List Char) (s v : Int)
    (htext : text ≠ []) (hv : 0 < v) (hvs : v < s) :
    ∃ (chunks : List (List Char)) (sp : List (Nat × Nat)),
      basic_word_chunker text s v = .ok chunks ∧
      chunks ≠ [] ∧
      chunks = sp.map (fun pq =>
        (text.drop (clenAt (splitRuns text) pq.1)).take
          (clenAt (splitRuns text) pq.2 - clenAt (splitRuns text) pq.1)) ∧
      chunks = sp.map (fun pq =>
        (((splitRuns text).drop pq.1).take (pq.2 - pq.1)).flatten) ∧
      (∀ pq ∈ sp, pq.1 ≤ pq.2 ∧ pq.2 ≤ (splitRuns text).length) ∧
      (sp.map (fun pq => clenAt (splitRuns text) pq.1)).head? = some 0 ∧
      (sp.map (fun pq => clenAt (splitRuns text) pq.2)).getLast? = some text.length ∧
      List.Chain' (fun pq pq' =>
        clenAt (splitRuns text) pq'.1 ≤ clenAt (splitRuns text) pq.2) sp ∧
      List.Chain' (chunkRel v (splitRuns text)) sp := by
  have hws : splitRuns text ≠ [] := splitRuns_ne_nil htext
  obtain ⟨sp, cs, heq, hne, hmap, hhead, hlast, hbound, hchain⟩ :=
    chunkLoopF_spans s v hv hvs (splitRuns text).length (splitRuns text) hws (Nat.le_refl _)
  have hok : basic_word_chunker text s v = .ok cs := by
    unfold basic_word_chunker
    rw [if_neg (by simpa using htext), if_neg (by omega : ¬ s ≤ v),
      if_neg (by simpa using hws), heq]
    rfl
  refine ⟨cs, sp, hok, ?_, ?_, hmap, hbound, ?_, ?_, ?_, hchain⟩
  · rw [hmap]
    cases sp with
    | nil => exact absurd rfl hne
    | cons pq sp' => simp
  · rw [hmap]
    apply List.map_congr_left
    intro pq hpq
    obtain ⟨h1, h2⟩ := hbound pq hpq
    rw [flatten_slice h1, flatten_splitRuns]
  · rw [List.head?_map, hhead]
    rfl
  · have : (sp.map fun pq => clenAt (splitRuns text) pq.2)
        = (sp.map Prod.snd).map (clenAt (splitRuns text)) := by
      rw [List.map_map]
      rfl
    rw [this, List.getLast?_map, hlast]
    show some (clenAt (splitRuns text) (splitRuns text).length) = some text.length
    rw [clenAt_length, flatten_splitRuns]
  · refine List.Chain'.imp ?_ hchain
    intro pq pq' hrel
    exact clenAt_mono hrel.1

/-- Witness for C1 at the concrete input `"a b c"` with size 2, overlap 1. -/
theorem C1_chunker_coverage_overlap_witness :
    ∃ (chunks : List (List Char)) (sp : List (Nat × Nat)),
      basic_word_chunker "a b c".toList 2 1 = .ok chunks ∧
      chunks ≠ [] ∧
      chunks = sp.map (fun pq =>
        ("a b c".toList.drop (clenAt (splitRuns "a b c".toList) pq.1)).take
          (clenAt (splitRuns "a b c".toList) pq.2 - clenAt (splitRuns "a b c".toList) pq.1)) ∧
      chunks = sp.map (fun pq =>
        (((splitRuns "a b c".toList).drop pq.1).take (pq.2 - pq.1)).flatten) ∧
      (∀ pq ∈ sp, pq.1 ≤ pq.2 ∧ pq.2 ≤ (splitRuns "a b c".toList).length) ∧
      (sp.map (fun pq => clenAt (splitRuns "a b c".toList) pq.1)).head? = some 0 ∧
      (sp.map (fun pq => clenAt (splitRuns "a b c".toList) pq.2)).getLast?
        = some "a b c".toList.length ∧
      List.Chain' (fun pq pq' =>
        clenAt (splitRuns "a b c".toList) pq'.1 ≤ clenAt (splitRuns "a b c".toList) pq.2) sp ∧
      List.Chain' (chunkRel 1 (splitRuns "a b c".toList)) sp :=
  C1_chunker_coverage_overlap ("a b c".toList) 2 1 (by decide) (by decide) (by decide)

/-- C9: under the precondition chunk_size > chunk_overlap the chunking loop
terminates — with fuel equal to the number of tokenization elements (one
unit per loop iteration, each iteration advancing the cursor by at least one
element) the loop completes instead of exhausting its fuel, and
`basic_word_chunker` returns this completed result on non-empty input. -/
theorem C9_chunker_terminates (text : List Char) (s v : Int) (hvs : v < s) :
    ∃ cs, chunkLoopF s v (splitRuns text).length (splitRuns text) = some cs ∧
      basic_word_chunker text s v = if text.isEmpty then .ok [] else .ok cs := by
  have hsome := chunkLoopF_isSome s v (splitRuns text).length (splitRuns text) (Nat.le_refl _)
  obtain ⟨cs, hcs⟩ := Option.isSome_iff_exists.mp hsome
  refine ⟨cs, hcs, ?_⟩
  by_cases ht : text.isEmpty
  · simp [basic_word_chunker, ht]
  · have htne : text ≠ [] := by simpa using ht
    have hws := splitRuns_ne_nil htne
    unfold basic_word_chunker
    rw [if_neg ht, if_neg (by omega : ¬ s ≤ v), if_neg (by simpa using hws), hcs,
      if_neg ht]
    rfl

/-- Witness for C9 at the concrete input `"a b"` with size 3, overlap 1. -/
theorem C9_chunker_terminates_witness :
    ∃ cs, chunkLoopF 3 1 (splitRuns "a b".toList).length (splitRuns "a b".toList) = some cs ∧
      basic_word_chunker "a b".toList 3 1
        = if "a b".toList.isEmpty then .ok [] else .ok cs :=
  C9_chunker_terminates ("a b".toList) 3 1 (by decide)

/-- C2 counterexample: with empty text and chunk_size 5 ≤ chunk_overlap 10,
the chunker returns the empty chunk sequence instead of failing: the
empty-text short-circuit on line 8 of chunking.py precedes the parameter
validation on line 10, contradicting the claim that validation comes first
(or is independent of it). -/
theorem C2_counterexample :
    basic_word_chunker [] 5 10 = .ok [] ∧ (5 : Int) ≤ 10 :=
  ⟨rfl, by decide⟩

/-- C2 (amended): with chunk_size ≤ chunk_overlap, every NON-empty text
fails with the ValueError, while the empty text returns the empty sequence
regardless of the parameters — the empty-text short-circuit precedes the
parameter validation. -/
theorem C2_invalid_params (text : List Char) (s v : Int) (hs : s ≤ v) :
    basic_word_chunker text s v
      = if text.isEmpty then .ok []
        else .error ("Chunk size must be greater than chunk overlap.".toList) := by
  unfold basic_word_chunker
  by_cases ht : text.isEmpty
  · rw [if_pos ht, if_pos ht]
  · rw [if_neg ht, if_neg ht, if_pos hs]

/-- Witness for C2 (amended) at the concrete input `"abc"`, size 5,
overlap 10. -/
theorem C2_invalid_params_witness :
    basic_word_chunker "abc".toList 5 10
      = if "abc".toList.isEmpty then .ok []
        else .error ("Chunk size must be greater than chunk overlap.".toList) :=
  C2_invalid_params ("abc".toList) 5 10 (by decide)

/-- C5 counterexample: the text `"a b "` has exactly 2 words, and with
chunk_size 2, chunk_overlap 1 (valid parameters, 2 words ≤ size 2) the
chunker returns TWO chunks, not one chunk equal to the whole text: the
first pass stops right after the second word, leaving the trailing
whitespace to a second pass. -/
theorem C5_counterexample :
    numWords "a b ".toList = 2 ∧ (0:Int) < 1 ∧ (1:Int) < 2 ∧
    basic_word_chunker "a b ".toList 2 1 = .ok ["a b".toList, " b ".toList] :=
  ⟨by decide, by decide, by decide, rfl⟩

/-- C5 (amended): for every non-empty text of N words with N ≤ chunk_size
and valid parameters `0 < overlap < size`, the chunker yields exactly one
chunk equal to the whole text (leading and trailing whitespace included),
provided N < chunk_size or the text does not end in whitespace — the
counterexample forces excluding exactly the case N = chunk_size with
trailing whitespace. -/
theorem C5_single_chunk (text : List Char) (s v : Int)
    (htext : text ≠ []) (hv : 0 < v) (hvs : v < s)
    (hN : (numWords text : Int) ≤ s)
    (hcase : (numWords text : Int) < s ∨
      ∀ c, text.getLast? = some c → c.isWhitespace = false) :
    basic_word_chunker text s v = .ok [text] := by
  have hws : splitRuns text ≠ [] := splitRuns_ne_nil htext
  have hspan : spanWords (splitRuns text) s = (splitRuns text).length := by
    rcases hcase with hlt | hnw
    · exact spanWords_eq_length_of_countW_lt _ hlt
    · obtain ⟨c, hc⟩ := Option.isSome_iff_exists.mp (List.getLast?_isSome.mpr htext)
      obtain ⟨r, hr⟩ := Option.isSome_iff_exists.mp (List.getLast?_isSome.mpr hws)
      have hrw : strIsSpace r = false := last_run_word hc (hnw c hc) hr
      exact spanWords_eq_length_of_last_word _ hN hr hrw
  unfold basic_word_chunker
  rw [if_neg (by simpa using htext), if_neg (by omega : ¬ s ≤ v),
    if_neg (by simpa using hws),
    chunkLoopF_single hws (List.length_pos.mpr hws) hspan]
  show Except.ok [(splitRuns text).flatten] = _
  rw [flatten_splitRuns]

/-- Witness for C5 (amended) at the concrete input `"hello world"`
(2 words), size 3, overlap 1. -/
theorem C5_single_chunk_witness :
    basic_word_chunker "hello world".toList 3 1 = .ok ["hello world".toList] :=
  C5_single_chunk ("hello world".toList) 3 1 (by decide) (by decide) (by decide)
    (by decide) (Or.inl (by decide))

/-- C8 counterexample: the text `"a b c "` has exactly 3 = 2·2 − 1 words,
and with chunk_size 2, chunk_overlap 1 the chunker returns THREE chunks,
not two: the trailing whitespace spawns a third, all-whitespace-and-overlap
pass. -/
theorem C8_counterexample :
    numWords "a b c ".toList = 2 * 2 - 1 ∧ (0:Int) < 1 ∧ (1:Int) < 2 ∧
    basic_word_chunker "a b c ".toList 2 1
      = .ok ["a b".toList, " b c".toList, " c ".toList] :=
  ⟨by decide, by decide, by decide, rfl⟩

/-- C8 (amended): for every text of exactly `2·chunk_size − chunk_overlap`
words not ending in whitespace (the counterexample forces excluding
trailing whitespace), with valid parameters the chunker yields exactly two
chunks; the advance point `a` sits right after the first
`chunk_size − chunk_overlap` words, and the second chunk's word sequence is
the input's word sequence from index `chunk_size − chunk_overlap` on — in
particular its first word is the word at that index. -/
theorem C8_two_chunks (text : List Char) (s v : Int)
    (hv : 0 < v) (hvs : v < s)
    (hW : (numWords text : Int) = 2 * s - v)
    (hlast : ∀ c, text.getLast? = some c → c.isWhitespace = false) :
    ∃ a : Nat,
      basic_word_chunker text s v
        = .ok [((splitRuns text).take (spanWords (splitRuns text) s)).flatten,
               ((splitRuns text).drop a).flatten] ∧
      (countW ((splitRuns text).take a) : Int) = s - v ∧
      wordElems ((splitRuns text).drop a)
        = (wordElems (splitRuns text)).drop (countW ((splitRuns text).take a)) := by
  have hws : splitRuns text ≠ [] := by
    intro h0
    rw [numWords, h0, countW_nil] at hW
    omega
  have htext : text ≠ [] := by
    intro h0
    rw [h0] at hws
    exact hws rfl
  have hcw : (countW (splitRuns text) : Int) = 2 * s - v := hW
  have hcnt_lt : spanWords (splitRuns text) s < (splitRuns text).length :=
    spanWords_lt_length _ (by omega) (by omega)
  have ha1 : 1 ≤ spanWords (splitRuns text) (s - v) :=
    spanWords_pos hws (by omega)
  have hale : spanWords (splitRuns text) (s - v) ≤ spanWords (splitRuns text) s :=
    spanWords_mono _ (by omega)
  have halt : spanWords (splitRuns text) (s - v) < (splitRuns text).length :=
    lt_of_le_of_lt hale hcnt_lt
  refine ⟨spanWords (splitRuns text) (s - v), ?_, ?_, ?_⟩
  case refine_2 =>
    exact countW_take_spanWords _ (by omega) halt
  case refine_3 =>
    have hsplit : wordElems (splitRuns text)
        = wordElems ((splitRuns text).take (spanWords (splitRuns text) (s - v)))
          ++ wordElems ((splitRuns text).drop (spanWords (splitRuns text) (s - v))) := by
      conv_lhs => rw [← List.take_append_drop (spanWords (splitRuns text) (s - v)) (splitRuns text)]
      rw [wordElems, wordElems, wordElems, List.filter_append]
    rw [hsplit]
    rw [show countW ((splitRuns text).take (spanWords (splitRuns text) (s - v)))
        = (wordElems ((splitRuns text).take (spanWords (splitRuns text) (s - v)))).length from rfl]
    rw [List.drop_left]
  case refine_1 =>
    have htake : (countW ((splitRuns text).take (spanWords (splitRuns text) (s - v))) : Int)
        = s - v := countW_take_spanWords _ (by omega) halt
    have hdropcw : (countW ((splitRuns text).drop (spanWords (splitRuns text) (s - v))) : Int)
        = s := by
      have happ := countW_append ((splitRuns text).take (spanWords (splitRuns text) (s - v)))
        ((splitRuns text).drop (spanWords (splitRuns text) (s - v)))
      rw [List.take_append_drop] at happ
      omega
    obtain ⟨c, hc⟩ := Option.isSome_iff_exists.mp (List.getLast?_isSome.mpr htext)
    obtain ⟨r, hr⟩ := Option.isSome_iff_exists.mp (List.getLast?_isSome.mpr hws)
    have hrw : strIsSpace r = false := last_run_word hc (hlast c hc) hr
    have hdrop_ne : (splitRuns text).drop (spanWords (splitRuns text) (s - v)) ≠ [] := by
      intro h0
      have := congrArg List.length h0
      simp only [List.length_drop, List.length_nil] at this
      omega
    have hlastdrop : ((splitRuns text).drop (spanWords (splitRuns text) (s - v))).getLast?
        = some r := by
      conv at hr => rw [← List.take_append_drop (spanWords (splitRuns text) (s - v)) (splitRuns text)]
      rwa [List.getLast?_append_of_ne_nil _ hdrop_ne] at hr
    have hspan2 : spanWords ((splitRuns text).drop (spanWords (splitRuns text) (s - v))) s
        = ((splitRuns text).drop (spanWords (splitRuns text) (s - v))).length :=
      spanWords_eq_length_of_last_word _ (by omega) hlastdrop hrw
    unfold basic_word_chunker
    rw [if_neg (by simpa using htext), if_neg (by omega : ¬ s ≤ v),
      if_neg (by simpa using hws)]
    rw [chunkLoopF_step hws hv hvs (List.length_pos.mpr hws) (by omega)]
    rw [chunkLoopF_single hdrop_ne ?hfuel hspan2]
    · rfl
    case hfuel =>
      simp only [List.length_drop] at *
      omega

/-- Witness for C8 (amended) at the concrete input `"a b c"`
(3 = 2·2 − 1 words, no trailing whitespace), size 2, overlap 1. -/
theorem C8_two_chunks_witness :
    ∃ a : Nat,
      basic_word_chunker "a b c".toList 2 1
        = .ok [((splitRuns "a b c".toList).take (spanWords (splitRuns "a b c".toList) 2)).flatten,
               ((splitRuns "a b c".toList).drop a).flatten] ∧
      (countW ((splitRuns "a b c".toList).take a) : Int) = 2 - 1 ∧
      wordElems ((splitRuns "a b c".toList).drop a)
        = (wordElems (splitRuns "a b c".toList)).drop (countW ((splitRuns "a b c".toList).take a)) :=
  C8_two_chunks ("a b c".toList) 2 1 (by decide) (by decide) (by decide)
    (by
      intro c hc
      have h := Option.some.inj hc
      subst h
      decide)

/-- The chunker has exactly one raisable error. -/
theorem basic_word_chunker_error_msg {text : List Char} {s v : Int} {e : List Char}
    (h : basic_word_chunker text s v = .error e) :
    e = ("Chunk size must be greater than chunk overlap.".toList) := by
  unfold basic_word_chunker at h
  split at h
  · cases h
  · split at h
    · exact (Except.error.inj h).symm
    · replace h : (if (splitRuns text).isEmpty = true then Except.ok []
          else Except.ok ((chunkLoopF s v (splitRuns text).length (splitRuns text)).getD []))
          = Except.error e := h
      split at h <;> cases h

/-- The only exception the per-document loop body can raise is the
chunker's ValueError. -/
theorem processDoc_error_msg {fetch : List Char → Option (List Char)}
    {embed : List (List Char) → Option (List (Option (List Int)))}
    {uuid : List Char → Nat → List Char} {s v : Int} {d e : List Char}
    (h : processDoc fetch embed uuid s v d = .error e) :
    e = ("Chunk size must be greater than chunk overlap.".toList) := by
  rcases hfd : fetch d with _ | t
  · have hval : processDoc fetch embed uuid s v d = .ok [] := by
      unfold processDoc
      rw [hfd]
    rw [hval] at h
    cases h
  · have hval : processDoc fetch embed uuid s v d
        = (if t.all Char.isWhitespace then Except.ok []
           else (basic_word_chunker t s v).map (afterChunking embed (uuid d) d)) := by
      unfold processDoc
      rw [hfd]
    rw [hval] at h
    split at h
    · cases h
    · rcases hbw : basic_word_chunker t s v with e' | cs
      · rw [hbw] at h
        have he : e' = e := Except.error.inj h
        exact he ▸ basic_word_chunker_error_msg hbw
      · rw [hbw] at h
        cases h

/-- C3 counterexample: two documents, both fetchable with non-empty text,
chunk_size 2 ≤ chunk_overlap 5 — the ingest run ABORTS with the chunker's
ValueError instead of skipping the failing document and continuing with the
next: ingest_docs.py has no try/except around the per-document loop body,
so the second document is never processed and no ok-outcome is produced. -/
theorem C3_counterexample :
    process_and_ingest_documents
      (fun _ => some "hello world".toList)
      (fun _ => none) (fun _ _ => []) 2 5
      ["d1".toList, "d2".toList]
      = .error ("Chunk size must be greater than chunk overlap.".toList) := rfl

/-- C3 (amended): a ChunkingInvalidParameters failure (chunk_size ≤
chunk_overlap) raised while chunking one document is fatal to the WHOLE
ingest run: as soon as any document of the batch reaches the chunker (its
fetch returns text that is neither missing nor all-whitespace), the
uncaught ValueError propagates out of the per-document loop and the run
returns that error instead of continuing with the remaining documents. -/
theorem C3_chunking_error_aborts_run
    (fetch : List Char → Option (List Char))
    (embed : List (List Char) → Option (List (Option (List Int))))
    (uuid : List Char → Nat → List Char) (s v : Int) (hs : s ≤ v)
    (files : List (List Char))
    (hwitness : ∃ d ∈ files, ∃ t, fetch d = some t ∧ t.all Char.isWhitespace = false) :
    process_and_ingest_documents fetch embed uuid s v files
      = .error ("Chunk size must be greater than chunk overlap.".toList) := by
  have key : ∀ (fs : List (List Char)) (acc : List IngestRecord),
      (∃ d ∈ fs, ∃ t, fetch d = some t ∧ t.all Char.isWhitespace = false) →
      fs.foldlM (fun acc d => (processDoc fetch embed uuid s v d).map (fun rs => acc ++ rs)) acc
        = .error ("Chunk size must be greater than chunk overlap.".toList) := by
    intro fs
    induction fs with
    | nil => intro acc h; simp at h
    | cons d rest ih =>
      intro acc h
      simp only [List.foldlM_cons]
      rcases hpd : processDoc fetch embed uuid s v d with e | rs
      · have hmsg := processDoc_error_msg hpd
        subst hmsg
        rfl
      · rcases h with ⟨d0, hd0mem, t, hft, hnws⟩
        rcases List.mem_cons.mp hd0mem with rfl | hmem
        · exfalso
          have htne : t.isEmpty = false := by
            cases t with
            | nil => simp at hnws
            | cons c cs => rfl
          have hbw : basic_word_chunker t s v
              = .error ("Chunk size must be greater than chunk overlap.".toList) := by
            unfold basic_word_chunker
            rw [htne]
            rw [if_neg (by simp), if_pos hs]
          have hval : processDoc fetch embed uuid s v d0
              = (if t.all Char.isWhitespace then Except.ok []
                 else (basic_word_chunker t s v).map (afterChunking embed (uuid d0) d0)) := by
            unfold processDoc
            rw [hft]
          have hpd' : processDoc fetch embed uuid s v d0
              = .error ("Chunk size must be greater than chunk overlap.".toList) := by
            rw [hval, if_neg (by simp [hnws]), hbw]
            rfl
          rw [hpd'] at hpd
          cases hpd
        · exact ih (acc ++ rs) ⟨d0, hmem, t, hft, hnws⟩
  exact key files [] hwitness

/-- Witness for C3 (amended): one fetchable document, size 2 ≤ overlap 5. -/
theorem C3_chunking_error_aborts_run_witness :
    process_and_ingest_documents (fun _ => some "hi there".toList) (fun _ => none)
      (fun _ _ => []) 2 5 ["d1".toList]
      = .error ("Chunk size must be greater than chunk overlap.".toList) :=
  C3_chunking_error_aborts_run _ _ _ 2 5 (by decide) _
    ⟨"d1".toList, by decide, "hi there".toList, rfl, by decide⟩

/-- C4: per-document independence of the ingest batch — (i) a missing fetch
or all-whitespace/empty text skips the document (no records, `.ok []`);
(ii) zero chunks skip the document with no embedding call (the result is
`[]` for every embedding collaborator); (iii) a null embedding batch or a
count mismatch skips the whole document, accumulating none of its records;
and a skipped document leaves the batch result exactly as if it were absent
(processing continues with the other documents). -/
theorem C4_document_skip_independence
    (fetch : List Char → Option (List Char))
    (embed embed' : List (List Char) → Option (List (Option (List Int))))
    (uuid : List Char → Nat → List Char) (s v : Int)
    (doc : List Char) (chunks : List (List Char)) :
    (fetch doc = none → processDoc fetch embed uuid s v doc = .ok []) ∧
    (∀ t, fetch doc = some t → t.all Char.isWhitespace = true →
      processDoc fetch embed uuid s v doc = .ok []) ∧
    (afterChunking embed (uuid doc) doc [] = [] ∧
      afterChunking embed (uuid doc) doc [] = afterChunking embed' (uuid doc) doc []) ∧
    (embed chunks = none → afterChunking embed (uuid doc) doc chunks = []) ∧
    (∀ embs, embed chunks = some embs → embs.length ≠ chunks.length →
      afterChunking embed (uuid doc) doc chunks = []) ∧
    (processDoc fetch embed uuid s v doc = .ok [] →
      ∀ (pre post : List (List Char)),
        process_and_ingest_documents fetch embed uuid s v (pre ++ doc :: post)
          = process_and_ingest_documents fetch embed uuid s v (pre ++ post)) := by
  refine ⟨?_, ?_, ⟨rfl, rfl⟩, ?_, ?_, ?_⟩
  · intro h
    unfold processDoc
    rw [h]
  · intro t ht hws
    have hval : processDoc fetch embed uuid s v doc
        = (if t.all Char.isWhitespace then Except.ok []
           else (basic_word_chunker t s v).map (afterChunking embed (uuid doc) doc)) := by
      unfold processDoc
      rw [ht]
    rw [hval, if_pos hws]
  · intro h
    unfold afterChunking
    split
    · rfl
    · rw [h]
  · intro embs h hlen
    unfold afterChunking
    split
    · rfl
    · rw [h]
      show (if embs.length ≠ chunks.length then [] else buildRecords (uuid doc) doc chunks embs) = []
      rw [if_pos hlen]
  · intro hok pre post
    unfold process_and_ingest_documents
    rw [List.foldlM_append, List.foldlM_append]
    rcases hpre : (pre.foldlM
        (fun acc d => (processDoc fetch embed uuid s v d).map (fun rs => acc ++ rs))
        ([] : List IngestRecord)) with e | b
    · rfl
    · show (doc :: post).foldlM
          (fun acc d => (processDoc fetch embed uuid s v d).map (fun rs => acc ++ rs)) b
        = post.foldlM
          (fun acc d => (processDoc fetch embed uuid s v d).map (fun rs => acc ++ rs)) b
      simp only [List.foldlM_cons]
      rw [hok]
      show post.foldlM
          (fun acc d => (processDoc fetch embed uuid s v d).map (fun rs => acc ++ rs)) (b ++ [])
        = post.foldlM
          (fun acc d => (processDoc fetch embed uuid s v d).map (fun rs => acc ++ rs)) b
      rw [List.append_nil]

/-- Witness for C4 at concrete collaborators: a document whose fetch is
missing is skipped, a null embedding batch produces no records, and the
skipped document leaves the batch outcome unchanged. -/
theorem C4_document_skip_independence_witness :
    processDoc (fun _ => none) (fun _ => none) (fun _ _ => []) 5 2 "d1".toList = .ok [] ∧
    afterChunking (fun _ => none) (fun _ => []) "d1".toList ["ab".toList] = [] ∧
    process_and_ingest_documents (fun _ => none) (fun _ => none) (fun _ _ => []) 5 2
        (["x".toList] ++ "d1".toList :: ["y".toList])
      = process_and_ingest_documents (fun _ => none) (fun _ => none) (fun _ _ => []) 5 2
        (["x".toList] ++ ["y".toList]) :=
  ⟨(C4_document_skip_independence (fun _ => none) (fun _ => none) (fun _ => none)
      (fun _ _ => []) 5 2 "d1".toList ["ab".toList]).1 rfl,
   (C4_document_skip_independence (fun _ => none) (fun _ => none) (fun _ => none)
      (fun _ _ => []) 5 2 "d1".toList ["ab".toList]).2.2.2.1 rfl,
   (C4_document_skip_independence (fun _ => none) (fun _ => none) (fun _ => none)
      (fun _ _ => []) 5 2 "d1".toList ["ab".toList]).2.2.2.2.2
     ((C4_document_skip_independence (fun _ => none) (fun _ => none) (fun _ => none)
        (fun _ _ => []) 5 2 "d1".toList ["ab".toList]).1 rfl)
     ["x".toList] ["y".toList]⟩

/-! ### Helper lemmas: the sorted de-duplicated source set -/

theorem strLt_trans : ∀ {a b c : List Char},
    strLt a b = true → strLt b c = true → strLt a c = true := by
  intro a
  induction a with
  | nil =>
    intro b c hab hbc
    cases b with
    | nil => cases hab
    | cons y ys =>
      cases c with
      | nil => cases hbc
      | cons z zs => rfl
  | cons x xs ih =>
    intro b c hab hbc
    cases b with
    | nil => cases hab
    | cons y ys =>
      cases c with
      | nil => cases hbc
      | cons z zs =>
        simp only [strLt] at hab hbc ⊢
        split at hab
        · rename_i hxy
          split at hbc
          · rename_i hyz
            rw [if_pos (lt_trans hxy hyz)]
          · split at hbc
            · rename_i hyz
              rw [if_pos (hyz ▸ hxy)]
            · cases hbc
        · split at hab
          · rename_i hxy
            subst hxy
            split at hbc
            · rename_i hyz
              rw [if_pos hyz]
            · split at hbc
              · rename_i hyz
                subst hyz
                rw [if_neg (lt_irrefl x), if_pos rfl]
                exact ih hab hbc
              · cases hbc
          · cases hab

theorem strLt_total : ∀ {a b : List Char},
    strLt a b = false → a ≠ b → strLt b a = true := by
  intro a
  induction a with
  | nil =>
    intro b hab hne
    cases b with
    | nil => exact absurd rfl hne
    | cons y ys => cases hab
  | cons x xs ih =>
    intro b hab hne
    cases b with
    | nil => rfl
    | cons y ys =>
      simp only [strLt] at hab ⊢
      split at hab
      · cases hab
      · split at hab
        · rename_i hlt hxy
          subst hxy
          rw [if_neg (lt_irrefl x), if_pos rfl]
          exact ih hab (by intro h0; exact hne (by rw [h0]))
        · rename_i hlt hxy
          have : y < x := by
            rcases lt_trichotomy x y with h | h | h
            · exact absurd h hlt
            · exact absurd h hxy
            · exact h
          rw [if_pos this]

theorem mem_insertSorted {x z : List Char} : ∀ {l : List (List Char)},
    z ∈ insertSorted x l ↔ z = x ∨ z ∈ l := by
  intro l
  induction l with
  | nil => simp [insertSorted]
  | cons y ys ih =>
    simp only [insertSorted]
    split
    · simp [List.mem_cons]
    · split
      · rename_i hxy
        subst hxy
        simp [List.mem_cons]
      · simp only [List.mem_cons, ih]
        tauto

theorem pairwise_insertSorted {x : List Char} : ∀ {l : List (List Char)},
    l.Pairwise (fun a b => strLt a b = true) →
    (insertSorted x l).Pairwise (fun a b => strLt a b = true) := by
  intro l
  induction l with
  | nil =>
    intro _
    simp [insertSorted]
  | cons y ys ih =>
    intro hp
    rw [List.pairwise_cons] at hp
    obtain ⟨hy, hys⟩ := hp
    simp only [insertSorted]
    split
    · rename_i hxy
      rw [List.pairwise_cons]
      refine ⟨?_, List.Pairwise.cons hy hys⟩
      intro z hz
      rcases List.mem_cons.mp hz with rfl | hzys
      · exact hxy
      · exact strLt_trans hxy (hy z hzys)
    · split
      · exact List.Pairwise.cons hy hys
      · rename_i hxy hne
        rw [List.pairwise_cons]
        constructor
        · intro z hz
          rcases mem_insertSorted.mp hz with rfl | hzys
          · exact strLt_total (by simpa using hxy) hne
          · exact hy z hzys
        · exact ih hys

theorem sortedSources_pairwise (ids : List (List Char)) :
    (sortedSources ids).Pairwise (fun a b => strLt a b = true) := by
  induction ids with
  | nil => simp [sortedSources]
  | cons i rest ih => exact pairwise_insertSorted ih

theorem mem_sortedSources {z : List Char} : ∀ {ids : List (List Char)},
    z ∈ sortedSources ids ↔ z ∈ ids := by
  intro ids
  induction ids with
  | nil => simp [sortedSources]
  | cons i rest ih =>
    show z ∈ insertSorted i (sortedSources rest) ↔ _
    rw [mem_insertSorted, ih]
    simp [List.mem_cons]

/-- Unfolding of the query orchestrator once the query embedding is known
to be non-null and non-empty. -/
theorem search_and_answer_eq (embedQuery : List Char → Option (List Int))
    (findN : List Int → Nat → List Neighbor) (llm : List Char → Option (List Char))
    (topK : Nat) (q : List Char) (x : Int) (xs : List Int)
    (hqe : embedQuery q = some (x :: xs)) :
    search_and_answer embedQuery findN llm topK q
      = (if (findN (x :: xs) topK).isEmpty then
          match llm q with
          | some r => QueryOutcome.generalKnowledge r
          | none => QueryOutcome.generalKnowledgeFailed
        else
          if ((findN (x :: xs) topK).map contextPart).isEmpty then QueryOutcome.noContext
          else
            match llm (promptForLLM
                (List.intercalate "\n".toList ((findN (x :: xs) topK).map contextPart)) q) with
            | some r => QueryOutcome.grounded r (citedSources (findN (x :: xs) topK))
            | none => QueryOutcome.groundedFailed) := by
  unfold search_and_answer
  rw [hqe]

/-- C6: with a non-empty neighbor list and a successful completion, the
query orchestrator returns the answer together with the cited
source-document identifiers: exactly the prefixes before the first
`"_chunk_"` of those neighbor ids that contain the separator, strictly
sorted (hence de-duplicated). -/
theorem C6_cited_sources (embedQuery : List Char → Option (List Int))
    (findN : List Int → Nat → List Neighbor) (llm : List Char → Option (List Char))
    (topK : Nat) (q : List Char) (x : Int) (xs : List Int) (ns : List Neighbor)
    (ans : List Char)
    (hqe : embedQuery q = some (x :: xs))
    (hns : findN (x :: xs) topK = ns) (hne : ns ≠ [])
    (hllm : llm (promptForLLM (List.intercalate "\n".toList (ns.map contextPart)) q)
      = some ans) :
    search_and_answer embedQuery findN llm topK q
      = .grounded ans (citedSources ns) ∧
    (citedSources ns).Pairwise (fun a b => strLt a b = true) ∧
    (∀ z, z ∈ citedSources ns ↔
      ∃ n ∈ ns, hasSubstring chunkSep n.id = true ∧ z = splitFirst chunkSep n.id) := by
  refine ⟨?_, sortedSources_pairwise _, ?_⟩
  · rw [search_and_answer_eq embedQuery findN llm topK q x xs hqe, hns]
    rw [if_neg (by simpa using hne), if_neg (by simpa using hne), hllm]
  · intro z
    rw [citedSources, mem_sortedSources, List.mem_filterMap]
    constructor
    · rintro ⟨n, hn, hf⟩
      by_cases hc : hasSubstring chunkSep n.id = true
      · rw [if_pos hc] at hf
        exact ⟨n, hn, hc, (Option.some.inj hf).symm⟩
      · rw [if_neg hc] at hf
        cases hf
    · rintro ⟨n, hn, hc, rfl⟩
      exact ⟨n, hn, by rw [if_pos hc]⟩

/-- Witness for C6: three neighbors `docA_chunk_x`, `docA_chunk_y`,
`docB_chunk_z` yield the answer with cited sources exactly
`["docA", "docB"]`, sorted and de-duplicated. -/
theorem C6_cited_sources_witness :
    search_and_answer (fun _ => some [7])
      (fun _ _ => [⟨"docA_chunk_x".toList, 1⟩, ⟨"docA_chunk_y".toList, 2⟩,
                   ⟨"docB_chunk_z".toList, 3⟩])
      (fun _ => some "ans".toList) 3 "q".toList
      = .grounded "ans".toList ["docA".toList, "docB".toList] := by
  have h := (C6_cited_sources (fun _ => some [7])
    (fun _ _ => [⟨"docA_chunk_x".toList, 1⟩, ⟨"docA_chunk_y".toList, 2⟩,
                 ⟨"docB_chunk_z".toList, 3⟩])
    (fun _ => some "ans".toList) 3 "q".toList 7 []
    [⟨"docA_chunk_x".toList, 1⟩, ⟨"docA_chunk_y".toList, 2⟩, ⟨"docB_chunk_z".toList, 3⟩]
    "ans".toList rfl rfl (by simp) rfl).1
  rw [h]
  rfl

/-- C7: when the index returns zero neighbors the orchestrator invokes the
completion provider with the bare user query, labels the outcome as the
general-knowledge (ungrounded) answer, and treats it as a degraded success;
the result depends on the completion provider only through its value at the
bare query (no grounded prompt is ever submitted), and a successful
completion yields the `generalKnowledge` outcome, not a failure. -/
theorem C7_zero_neighbors_fallback (embedQuery : List Char → Option (List Int))
    (findN : List Int → Nat → List Neighbor) (llm : List Char → Option (List Char))
    (topK : Nat) (q : List Char) (x : Int) (xs : List Int)
    (hqe : embedQuery q = some (x :: xs))
    (hzero : findN (x :: xs) topK = []) :
    search_and_answer embedQuery findN llm topK q
      = (match llm q with
         | some r => QueryOutcome.generalKnowledge r
         | none => QueryOutcome.generalKnowledgeFailed) ∧
    (∀ llm₁ llm₂ : List Char → Option (List Char), llm₁ q = llm₂ q →
      search_and_answer embedQuery findN llm₁ topK q
        = search_and_answer embedQuery findN llm₂ topK q) ∧
    (∀ r, llm q = some r →
      search_and_answer embedQuery findN llm topK q = QueryOutcome.generalKnowledge r) := by
  have key : ∀ g : List Char → Option (List Char),
      search_and_answer embedQuery findN g topK q
        = (match g q with
           | some r => QueryOutcome.generalKnowledge r
           | none => QueryOutcome.generalKnowledgeFailed) := by
    intro g
    rw [search_and_answer_eq embedQuery findN g topK q x xs hqe, hzero]
    rfl
  refine ⟨key llm, ?_, ?_⟩
  · intro llm₁ llm₂ h12
    rw [key llm₁, key llm₂, h12]
  · intro r hr
    rw [key llm, hr]

/-- Witness for C7: zero neighbors, completion provider is the identity on
its prompt — the answer returned is the bare query itself, demonstrating
the bare-query invocation. -/
theorem C7_zero_neighbors_fallback_witness :
    search_and_answer (fun _ => some [5]) (fun _ _ => []) (fun p => some p) 4 "hi".toList
      = QueryOutcome.generalKnowledge "hi".toList :=
  (C7_zero_neighbors_fallback (fun _ => some [5]) (fun _ _ => []) (fun p => some p)
    4 "hi".toList 5 [] rfl rfl).2.2 "hi".toList rfl

/-- C10: `find_neighbors` never raises — any exception from the underlying
match call is swallowed and the empty list returned — so inside the query
orchestrator an index failure is indistinguishable from a legitimate
zero-neighbor result and silently takes the general-knowledge fallback
path. -/
theorem C10_find_neighbors_never_raises
    (matchCall : List Int → Nat → Except (List Char) (List (List Neighbor)))
    (qe : List Int) (k : Nat) (msg : List Char)
    (hfail : matchCall qe k = .error msg) :
    find_neighbors matchCall qe k = [] ∧
    (∀ (embedQuery : List Char → Option (List Int)) (llm : List Char → Option (List Char))
        (q : List Char) (x : Int) (xs : List Int),
      embedQuery q = some (x :: xs) → x :: xs = qe →
      search_and_answer embedQuery (find_neighbors matchCall) llm k q
        = search_and_answer embedQuery (fun _ _ => []) llm k q ∧
      search_and_answer embedQuery (find_neighbors matchCall) llm k q
        = (match llm q with
           | some r => QueryOutcome.generalKnowledge r
           | none => QueryOutcome.generalKnowledgeFailed)) := by
  have h1 : find_neighbors matchCall qe k = [] := by
    unfold find_neighbors
    rw [hfail]
  refine ⟨h1, ?_⟩
  intro embedQuery llm q x xs hqe hxs
  have hzero : find_neighbors matchCall (x :: xs) k = [] := by
    rw [hxs, h1]
  constructor
  · rw [search_and_answer_eq embedQuery (find_neighbors matchCall) llm k q x xs hqe, hzero]
    rw [search_and_answer_eq embedQuery (fun _ _ => []) llm k q x xs hqe]
  · rw [search_and_answer_eq embedQuery (find_neighbors matchCall) llm k q x xs hqe, hzero]
    rfl

/-- Witness for C10: a match call that always raises; `find_neighbors`
returns `[]` and the query orchestrator produces the general-knowledge
answer. -/
theorem C10_find_neighbors_never_raises_witness :
    find_neighbors (fun _ _ => .error "boom".toList) [2] 5 = [] ∧
    search_and_answer (fun _ => some [2]) (find_neighbors (fun _ _ => .error "boom".toList))
        (fun _ => some "gk".toList) 5 "q".toList
      = QueryOutcome.generalKnowledge "gk".toList := by
  have h := C10_find_neighbors_never_raises (fun _ _ => .error "boom".toList) [2] 5
    "boom".toList rfl
  refine ⟨h.1, ?_⟩
  have h2 := (h.2 (fun _ => some [2]) (fun _ => some "gk".toList) "q".toList 2 [] rfl rfl).2
  rw [h2]

